import Mathlib

/-!
Verification of the convergent replicated key-value map underlying the
`examples/draw` demo (`src/examples/draw/src/App.tsx`).  The demo itself is a
thin UI layer over the `loro-crdt` document: it holds one document, a map
container named "movement", writes `x` and `y` on each (throttled) mousemove,
and displays `doc.exportFrom().length`.  The CRDT core (logical clock /
version vector, operation log, map store with last-writer-wins merge,
delta exporter and importer) is not part of this repository's sources, so it
is modelled from the specification, faithfully to the spec's words.
-/

namespace Loro

/-- Modelled from the spec: a ReplicaId is an opaque, globally unique
identifier; the tie-break compares them "ReplicaId ascending"
(lexicographically for the string ids used in the scenarios). -/
abbrev ReplicaId := String

/-- Modelled from the spec: a Clock is a non-negative integer, strictly
increasing per replica. -/
abbrev Clock := Nat

/-- Modelled from the spec: map values are a tagged variant over a small
closed set of scalar kinds (the float kind is omitted: no claim touches it
and floating point has no shallow embedding here). -/
inductive Value where
  | int (n : Int)
  | str (s : String)
  | bool (b : Bool)
deriving DecidableEq, Repr

/-- Modelled from the spec: an Operation is an immutable record
`{origin, seq, key, value}`; operations are uniquely identified by
`(origin, seq)`. -/
structure Operation where
  origin : ReplicaId
  seq : Nat
  key : String
  value : Value
deriving DecidableEq, Repr

/-- Modelled from the spec: a MapEntry is the currently materialized value
for a key together with the operation that produced it. -/
structure MapEntry where
  value : Value
  winner : ReplicaId
  winnerSeq : Nat
deriving DecidableEq, Repr

/-- The MapEntry produced by installing an operation. -/
def opEntry (op : Operation) : MapEntry :=
  ⟨op.value, op.origin, op.seq⟩

/-- Modelled from the spec: the Map Store is a mapping from key to MapEntry
(keys unique, iteration order irrelevant), here a function to `Option`. -/
abbrev MapStore := String → Option MapEntry

/-- A fresh Map Store holds no entries. -/
def emptyStore : MapStore := fun _ => none

/-- Strict lexicographic comparison of character lists (structural, so that
concrete instances evaluate inside the kernel). -/
def listLtChar : List Char → List Char → Bool
  | _, [] => false
  | [], _ :: _ => true
  | c1 :: t1, c2 :: t2 => decide (c1 < c2) || (decide (c1 = c2) && listLtChar t1 t2)

/-- Modelled from the spec: the "ReplicaId ascending" order — lexicographic
comparison of the string ids. -/
def ridLt (a b : ReplicaId) : Bool := listLtChar a.toList b.toList

/-- Modelled from the spec: the tie-break order on `(seq, origin)` pairs —
Clock ascending, then ReplicaId ascending; `keyGt s1 r1 s2 r2` holds when the
pair `(s1, r1)` is strictly greater than `(s2, r2)`. -/
def keyGt (s1 : Nat) (r1 : ReplicaId) (s2 : Nat) (r2 : ReplicaId) : Bool :=
  decide (s2 < s1) || (decide (s1 = s2) && ridLt r2 r1)

/-- Unconditionally install an operation as the entry for its key (the store
effect of a local write, and of a winning remote operation). -/
def installEntry (s : MapStore) (op : Operation) : MapStore :=
  fun k => if k = op.key then some (opEntry op) else s k

/-- Modelled from the spec: `applyRemote(op)` installs `op` as the new
MapEntry for `op.key` only if it wins against the existing entry (or no entry
exists) under the tie-break rule. -/
def applyRemote (s : MapStore) (op : Operation) : MapStore :=
  match s op.key with
  | none => installEntry s op
  | some e => if keyGt op.seq op.origin e.winnerSeq e.winner then installEntry s op else s

/-- Replaying a list of operations onto a fresh Map Store. -/
def replay (l : List Operation) : MapStore :=
  l.foldl applyRemote emptyStore

/-- An order of operations respects the per-origin sequence constraint when
any two operations from the same origin appear in strictly increasing `seq`
order. -/
def PerOriginInc (l : List Operation) : Prop :=
  List.Pairwise (fun a b => a.origin = b.origin → a.seq < b.seq) l

instance (l : List Operation) : Decidable (PerOriginInc l) := by
  unfold PerOriginInc; infer_instance

/-! ### Basic facts about the tie-break order -/

theorem listLtChar_irrefl (l : List Char) : listLtChar l l = false := by
  induction l with
  | nil => rfl
  | cons c t ih => simp [listLtChar, ih]

theorem listLtChar_asymm (a b : List Char) (h : listLtChar a b = true) :
    listLtChar b a = false := by
  induction a generalizing b with
  | nil =>
    cases b with
    | nil => simp [listLtChar] at h
    | cons c t => simp [listLtChar]
  | cons c1 t1 ih =>
    cases b with
    | nil => simp [listLtChar] at h
    | cons c2 t2 =>
      simp only [listLtChar, Bool.or_eq_true, Bool.and_eq_true, decide_eq_true_eq,
        Bool.or_eq_false_iff, Bool.and_eq_false_iff, decide_eq_false_iff_not] at h ⊢
      rcases h with hlt | ⟨heq, hlt⟩
      · exact ⟨lt_asymm hlt, Or.inl fun hc => absurd hc.symm (ne_of_lt hlt)⟩
      · subst heq
        exact ⟨lt_irrefl _, Or.inr (ih t2 hlt)⟩

theorem listLtChar_trans (a b c : List Char) (hab : listLtChar a b = true)
    (hbc : listLtChar b c = true) : listLtChar a c = true := by
  induction a generalizing b c with
  | nil =>
    cases c with
    | nil =>
      cases b with
      | nil => simp [listLtChar] at hbc
      | cons c2 t2 => simp [listLtChar] at hbc
    | cons c3 t3 => simp [listLtChar]
  | cons c1 t1 ih =>
    cases b with
    | nil => simp [listLtChar] at hab
    | cons c2 t2 =>
      cases c with
      | nil => simp [listLtChar] at hbc
      | cons c3 t3 =>
        simp only [listLtChar, Bool.or_eq_true, Bool.and_eq_true, decide_eq_true_eq]
          at hab hbc ⊢
        rcases hab with hlt | ⟨heq, hlt⟩ <;> rcases hbc with hlt2 | ⟨heq2, hlt2⟩
        · exact Or.inl (lt_trans hlt hlt2)
        · exact Or.inl (heq2 ▸ hlt)
        · exact Or.inl (heq ▸ hlt2)
        · exact Or.inr ⟨heq.trans heq2, ih t2 t3 hlt hlt2⟩

theorem listLtChar_total (a b : List Char) (h : a ≠ b) :
    listLtChar a b = true ∨ listLtChar b a = true := by
  induction a generalizing b with
  | nil =>
    cases b with
    | nil => exact absurd rfl h
    | cons c t => left; simp [listLtChar]
  | cons c1 t1 ih =>
    cases b with
    | nil => right; simp [listLtChar]
    | cons c2 t2 =>
      rcases lt_trichotomy c1 c2 with hc | hc | hc
      · left; simp [listLtChar, hc]
      · subst hc
        have ht : t1 ≠ t2 := fun ht => h (by rw [ht])
        rcases ih t2 ht with hlt | hlt
        · left; simp [listLtChar, hlt]
        · right; simp [listLtChar, hlt]
      · right; simp [listLtChar, hc]

theorem ridLt_irrefl (r : ReplicaId) : ridLt r r = false :=
  listLtChar_irrefl _

theorem ridLt_asymm (a b : ReplicaId) (h : ridLt a b = true) : ridLt b a = false :=
  listLtChar_asymm _ _ h

theorem ridLt_trans (a b c : ReplicaId) (hab : ridLt a b = true)
    (hbc : ridLt b c = true) : ridLt a c = true :=
  listLtChar_trans _ _ _ hab hbc

theorem ridLt_total (a b : ReplicaId) (h : a ≠ b) :
    ridLt a b = true ∨ ridLt b a = true :=
  listLtChar_total _ _ fun hl => h (String.toList_inj.mp hl)

theorem keyGt_irrefl (s : Nat) (r : ReplicaId) : keyGt s r s r = false := by
  simp [keyGt, ridLt_irrefl]

theorem keyGt_total (s1 s2 : Nat) (r1 r2 : ReplicaId)
    (h : (s1, r1) ≠ (s2, r2)) :
    keyGt s1 r1 s2 r2 = true ∨ keyGt s2 r2 s1 r1 = true := by
  rcases Nat.lt_trichotomy s1 s2 with hs | hs | hs
  · right; simp [keyGt, hs]
  · subst hs
    have hr : r1 ≠ r2 := fun hr => h (by rw [hr])
    rcases ridLt_total r1 r2 hr with hlt | hlt
    · right; simp [keyGt, hlt]
    · left; simp [keyGt, hlt]
  · left; simp [keyGt, hs]

theorem keyGt_asymm (s1 s2 : Nat) (r1 r2 : ReplicaId)
    (h : keyGt s1 r1 s2 r2 = true) : keyGt s2 r2 s1 r1 = false := by
  simp only [keyGt, Bool.or_eq_false_iff, Bool.and_eq_false_iff, decide_eq_false_iff_not,
    Bool.or_eq_true, Bool.and_eq_true, decide_eq_true_eq] at h ⊢
  rcases h with h | ⟨hs, hr⟩
  · exact ⟨Nat.not_lt.mpr (Nat.le_of_lt h), Or.inl fun hs => absurd hs.symm (Nat.ne_of_gt h)⟩
  · subst hs
    exact ⟨Nat.lt_irrefl _, Or.inr (ridLt_asymm _ _ hr)⟩

theorem keyGt_trans (s1 s2 s3 : Nat) (r1 r2 r3 : ReplicaId)
    (h12 : keyGt s1 r1 s2 r2 = true) (h23 : keyGt s2 r2 s3 r3 = true) :
    keyGt s1 r1 s3 r3 = true := by
  simp only [keyGt, Bool.or_eq_true, Bool.and_eq_true, decide_eq_true_eq] at h12 h23 ⊢
  rcases h12 with h12 | ⟨hs12, hr12⟩ <;> rcases h23 with h23 | ⟨hs23, hr23⟩
  · exact Or.inl (Nat.lt_trans h23 h12)
  · exact Or.inl (hs23 ▸ h12)
  · exact Or.inl (hs12 ▸ h23)
  · exact Or.inr ⟨hs12.trans hs23, ridLt_trans _ _ _ hr23 hr12⟩

/-! ### Pointwise view of `applyRemote` -/

/-- The per-key merge: what `applyRemote` does to the entry of the
operation's own key. -/
def mergeOpt (e : Option MapEntry) (op : Operation) : Option MapEntry :=
  match e with
  | none => some (opEntry op)
  | some e => if keyGt op.seq op.origin e.winnerSeq e.winner then some (opEntry op) else some e

theorem applyRemote_eval (s : MapStore) (op : Operation) (k : String) :
    applyRemote s op k = if k = op.key then mergeOpt (s op.key) op else s k := by
  unfold applyRemote
  cases he : s op.key with
  | none => simp only [he, installEntry, mergeOpt]
  | some e =>
    by_cases hgt : keyGt op.seq op.origin e.winnerSeq e.winner
    · simp only [he, hgt, if_true, installEntry, mergeOpt]
    · simp only [he, hgt, if_false, mergeOpt, Bool.false_eq_true]
      by_cases hk : k = op.key
      · rw [if_pos hk, hk, he]
      · rw [if_neg hk]

theorem mergeOpt_comm (e : Option MapEntry) (a b : Operation)
    (hab : a = b ∨ (a.seq, a.origin) ≠ (b.seq, b.origin)) :
    mergeOpt (mergeOpt e a) b = mergeOpt (mergeOpt e b) a := by
  rcases hab with rfl | hab
  · rfl
  have htot := keyGt_total a.seq b.seq a.origin b.origin hab
  cases e with
  | none =>
    simp only [mergeOpt, opEntry]
    rcases htot with hgt | hgt
    · simp [hgt, keyGt_asymm _ _ _ _ hgt]
    · simp [hgt, keyGt_asymm _ _ _ _ hgt]
  | some e0 =>
    simp only [mergeOpt]
    by_cases ha : keyGt a.seq a.origin e0.winnerSeq e0.winner <;>
      by_cases hb : keyGt b.seq b.origin e0.winnerSeq e0.winner <;>
      simp only [ha, hb, if_true, if_false, mergeOpt, opEntry]
    · rcases htot with hgt | hgt
      · simp [hgt, keyGt_asymm _ _ _ _ hgt]
      · simp [hgt, keyGt_asymm _ _ _ _ hgt]
    · have hba : keyGt b.seq b.origin a.seq a.origin = false := by
        by_contra hc
        have := keyGt_trans _ _ _ _ _ _ (Bool.of_not_eq_false hc) ha
        simp [this] at hb
      simp [ha, hba]
    · have hba : keyGt a.seq a.origin b.seq b.origin = false := by
        by_contra hc
        have := keyGt_trans _ _ _ _ _ _ (Bool.of_not_eq_false hc) hb
        simp [this] at ha
      simp [hb, hba]
    · simp [ha, hb]

/-- `applyRemote` commutes for any two operations that are equal or carry
distinct `(seq, origin)` identifiers. -/
theorem applyRemote_comm (s : MapStore) (a b : Operation)
    (hab : a = b ∨ (a.seq, a.origin) ≠ (b.seq, b.origin)) :
    applyRemote (applyRemote s a) b = applyRemote (applyRemote s b) a := by
  funext k
  simp only [applyRemote_eval]
  by_cases hka : k = a.key <;> by_cases hkb : k = b.key
  · have hk : a.key = b.key := by rw [← hka, hkb]
    simp only [hka, hk, if_pos rfl]
    exact mergeOpt_comm _ _ _ hab
  · have hk : ¬ a.key = b.key := fun h => hkb (hka.trans h)
    have hk2 : ¬ b.key = a.key := fun h => hk (Eq.symm h)
    simp [hka, hk, hk2]
  · have hk : ¬ b.key = a.key := fun h => hka (hkb.trans h)
    have hk2 : ¬ a.key = b.key := fun h => hk (Eq.symm h)
    simp [hkb, hk, hk2]
  · simp [hka, hkb]

/-! ### Version vectors, replicas, deltas -/

/-- Modelled from the spec: a VersionVector maps each ReplicaId to the
highest Clock value incorporated from that replica, here a finite
association list with absent origins reading as 0. -/
abbrev VersionVector := List (ReplicaId × Nat)

/-- Look up an origin in a version vector; absent origins read as 0. -/
def vvGet (f : VersionVector) (r : ReplicaId) : Nat :=
  match f with
  | [] => 0
  | (r2, m) :: rest => if r2 = r then m else vvGet rest r

/-- Record a new value for an origin, replacing its entry in place or
appending a fresh one. -/
def vvSet (f : VersionVector) (r : ReplicaId) (n : Nat) : VersionVector :=
  match f with
  | [] => [(r, n)]
  | (r2, m) :: rest => if r2 = r then (r, n) :: rest else (r2, m) :: vvSet rest r n

/-- Modelled from the spec: the Clock-level error raised by `observe` when a
sequence number is not the immediate successor. -/
inductive ClockError where
  | outOfOrder
deriving DecidableEq, Repr

/-- Modelled from the spec: `observe(origin, seq)` records that an operation
from `origin` with sequence `seq` has been incorporated; fails with
`OutOfOrderError` if `seq` is not exactly `currentFrontier(origin) + 1`. -/
def observe (f : VersionVector) (origin : ReplicaId) (seq : Nat) :
    Except ClockError VersionVector :=
  if seq = vvGet f origin + 1 then .ok (vvSet f origin seq) else .error .outOfOrder

/-- Modelled from the spec: the state of one replica — its id, its own
logical clock counter, its version vector, the materialized Map Store, and
the append-only Operation Log. -/
structure Replica where
  id : ReplicaId
  clock : Nat
  frontier : VersionVector
  store : MapStore
  log : List Operation

/-- A fresh replica: clock 0, empty frontier, empty store, empty log. -/
def initReplica (id : ReplicaId) : Replica :=
  ⟨id, 0, [], emptyStore, []⟩

/-- Modelled from the spec: `applyLocal(key, value)` allocates the next
local Clock, constructs an Operation, unconditionally installs it as the new
MapEntry for the key, appends it to the log, and advances the replica's own
frontier entry. -/
def applyLocal (r : Replica) (key : String) (v : Value) : Replica :=
  let seq := r.clock + 1
  let op : Operation := ⟨r.id, seq, key, v⟩
  { r with
    clock := seq
    frontier := vvSet r.frontier r.id seq
    store := installEntry r.store op
    log := r.log ++ [op] }

/-- Modelled from the spec: a Delta is an ordered sequence of Operations
plus the exporter's own VersionVector at export time. -/
structure Delta where
  senderFrontier : VersionVector
  operations : List Operation
deriving DecidableEq, Repr

/-- Modelled from the spec: `operationsSince(frontier)` selects, in log
order, every operation `op` with `op.seq > frontier.get(op.origin)`. -/
def operationsSince (log : List Operation) (f : VersionVector) : List Operation :=
  log.filter (fun op => decide (vvGet f op.origin < op.seq))

/-- Modelled from the spec: `exportDelta(targetFrontier)` is read-only and
returns exactly `operationsSince(targetFrontier)` together with the
exporter's own VersionVector. -/
def exportDelta (r : Replica) (target : VersionVector) : Delta :=
  ⟨r.frontier, operationsSince r.log target⟩

/-- Modelled from the spec: the import-level error taxonomy (decode errors
are out of scope of the embedded byte layer). -/
inductive ImportError where
  | missingPredecessor
deriving DecidableEq, Repr

/-- One step of the importer on a single operation: an already-seen
`(origin, seq)` is a no-op (duplicate at the Log boundary); the immediate
successor is observed, merged into the store, and appended to the log; a gap
leaves the state untouched and flags `MissingPredecessorError`. -/
def importOne (acc : Replica × Bool) (op : Operation) : Replica × Bool :=
  let r := acc.1
  if op.seq ≤ vvGet r.frontier op.origin then acc
  else if op.seq = vvGet r.frontier op.origin + 1 then
    ({ r with
        frontier := vvSet r.frontier op.origin op.seq
        store := applyRemote r.store op
        log := r.log ++ [op] }, acc.2)
  else (r, true)

/-- Modelled from the spec: `importDelta` processes the delta's operations
in order and surfaces `MissingPredecessorError` when any gap was detected,
leaving the effects of the successfully processed operations in place. -/
def importDelta (r : Replica) (d : Delta) : Replica × Option ImportError :=
  let res := d.operations.foldl importOne (r, false)
  (res.1, if res.2 then some .missingPredecessor else none)

/-! ### Serialization and the demo's listener -/

/-- Modelled from the spec: a deterministic self-describing byte encoding of
a string (length, then its character codes). -/
def encodeString (s : String) : List Nat :=
  s.length :: (s.toList.map Char.toNat)

/-- Modelled from the spec: a deterministic tagged byte encoding of a scalar
value. -/
def encodeValue : Value → List Nat
  | .int n => [0, if n < 0 then 1 else 0, n.natAbs]
  | .str s => 1 :: encodeString s
  | .bool b => [2, if b then 1 else 0]

/-- Byte encoding of one operation. -/
def encodeOp (op : Operation) : List Nat :=
  encodeString op.origin ++ [op.seq] ++ encodeString op.key ++ encodeValue op.value

/-- Byte encoding of the entries of a version vector. -/
def encodeVVBody : VersionVector → List Nat
  | [] => []
  | p :: rest => encodeString p.1 ++ [p.2] ++ encodeVVBody rest

/-- Byte encoding of a version vector (length-prefixed entry list). -/
def encodeVV (f : VersionVector) : List Nat :=
  f.length :: encodeVVBody f

/-- Byte encoding of a sequence of operations. -/
def encodeOps : List Operation → List Nat
  | [] => []
  | op :: rest => encodeOp op ++ encodeOps rest

/-- Modelled from the spec: the self-describing serialization of
`{senderFrontier, operations}` handed to the transport. -/
def serializeDelta (d : Delta) : List Nat :=
  encodeVV d.senderFrontier ++ d.operations.length :: encodeOps d.operations

/-- The store/clock/log effect of one captured mousemove event in the demo:
`map.set("x", e.pageX)` followed by `map.set("y", e.pageY)`
(`src/examples/draw/src/App.tsx`, lines 21-22). -/
def demoEvent (r : Replica) (px py : Int) : Replica :=
  applyLocal (applyLocal r "x" (.int px)) "y" (.int py)

/-- The byte count the demo displays: the length of `doc.exportFrom()` with
no frontier argument, i.e. an export against the empty frontier
(`src/examples/draw/src/App.tsx`, lines 23-24). -/
def demoSize (r : Replica) : Nat :=
  (serializeDelta (exportDelta r [])).length

/-! ### Version-vector lemmas -/

theorem vvGet_vvSet (f : VersionVector) (r r2 : ReplicaId) (n : Nat) :
    vvGet (vvSet f r n) r2 = if r = r2 then n else vvGet f r2 := by
  induction f with
  | nil => simp [vvSet, vvGet]
  | cons p rest ih =>
    obtain ⟨a, m⟩ := p
    by_cases har : a = r
    · subst har
      by_cases hr2 : a = r2 <;> simp [vvSet, vvGet, hr2]
    · by_cases hr2 : a = r2
      · subst hr2
        have : ¬ r = a := fun h => har h.symm
        simp [vvSet, vvGet, har, this]
      · simp [vvSet, vvGet, har, hr2, ih]

theorem vvGet_vvSet_self (f : VersionVector) (r : ReplicaId) (n : Nat) :
    vvGet (vvSet f r n) r = n := by
  simp [vvGet_vvSet]

theorem vvGet_vvSet_other (f : VersionVector) (r r2 : ReplicaId) (n : Nat)
    (h : r ≠ r2) : vvGet (vvSet f r n) r2 = vvGet f r2 := by
  simp [vvGet_vvSet, h]

/-! ### Frontier evolution under import -/

theorem importOne_frontier_mono (acc : Replica × Bool) (op : Operation) (o : ReplicaId) :
    vvGet acc.1.frontier o ≤ vvGet (importOne acc op).1.frontier o := by
  unfold importOne
  by_cases hdup : op.seq ≤ vvGet acc.1.frontier op.origin
  · simp [hdup]
  · by_cases hsucc : op.seq = vvGet acc.1.frontier op.origin + 1
    · simp only [if_neg hdup, if_pos hsucc]
      rw [vvGet_vvSet]
      by_cases ho : op.origin = o
      · subst ho; simp [hsucc]
      · simp [ho]
    · simp [hdup, hsucc]

theorem foldl_importOne_frontier_mono (l : List Operation) (acc : Replica × Bool)
    (o : ReplicaId) :
    vvGet acc.1.frontier o ≤ vvGet (l.foldl importOne acc).1.frontier o := by
  induction l generalizing acc with
  | nil => simp
  | cons op t ih =>
    exact le_trans (importOne_frontier_mono acc op o) (ih (importOne acc op))

theorem importOne_frontier_other (acc : Replica × Bool) (op : Operation) (o : ReplicaId)
    (h : op.origin ≠ o) :
    vvGet (importOne acc op).1.frontier o = vvGet acc.1.frontier o := by
  unfold importOne
  by_cases hdup : op.seq ≤ vvGet acc.1.frontier op.origin
  · simp [hdup]
  · by_cases hsucc : op.seq = vvGet acc.1.frontier op.origin + 1
    · simp [hdup, hsucc, vvGet_vvSet_other _ _ _ _ h]
    · simp [hdup, hsucc]

/-! ### Claims about the merge rule -/

theorem perOriginInc_distinct (l : List Operation) (hv : PerOriginInc l)
    (x : Operation) (hx : x ∈ l) (y : Operation) (hy : y ∈ l) :
    x = y ∨ (x.seq, x.origin) ≠ (y.seq, y.origin) := by
  by_cases hxy : x = y
  · exact Or.inl hxy
  · refine Or.inr fun hpair => ?_
    have hseq : x.seq = y.seq := congrArg Prod.fst hpair
    have hor : x.origin = y.origin := congrArg Prod.snd hpair
    have hsym : Symmetric (fun a b : Operation =>
        (a.origin = b.origin → a.seq < b.seq) ∨ (b.origin = a.origin → b.seq < a.seq)) :=
      fun a b h => h.symm
    have hall := List.Pairwise.forall hsym
      (hv.imp (fun h => Or.inl h)) hx hy hxy
    rcases hall with h | h
    · exact absurd (hseq ▸ h hor) (Nat.lt_irrefl _)
    · exact absurd (hseq ▸ h hor.symm) (Nat.lt_irrefl _)

/-- C1: for every finite set of operations, applying them to two fresh Map
Stores in any two orders that each respect the per-origin sequence
constraint yields identical final Map Store contents. -/
theorem convergence (l1 l2 : List Operation) (hperm : l1.Perm l2)
    (hv1 : PerOriginInc l1) (_hv2 : PerOriginInc l2) :
    replay l1 = replay l2 := by
  unfold replay
  refine hperm.foldl_eq' (fun x hx y hy z => ?_) emptyStore
  rcases perOriginInc_distinct l1 hv1 x hx y hy with rfl | hne
  · rfl
  · exact applyRemote_comm z x y (Or.inr hne)

/-- C1 witness: two valid interleavings of operations from replicas "A" and
"B" produce the same store. -/
theorem convergence_witness :
    replay [⟨"A", 1, "x", .int 1⟩, ⟨"B", 1, "x", .int 9⟩, ⟨"A", 2, "y", .int 5⟩] =
      replay [⟨"B", 1, "x", .int 9⟩, ⟨"A", 1, "x", .int 1⟩, ⟨"A", 2, "y", .int 5⟩] :=
  convergence _ _ (by decide) (by decide) (by decide)

/-- C2: for two operations on the same key with distinct `(seq, origin)`
identifiers, `applyRemote` in either order leaves the same entry, and from a
key with no existing entry the winner is the operation with the greater
`(seq, origin)` pair under Clock-ascending, ReplicaId-ascending order. -/
theorem applyRemote_merge_comm (s : MapStore) (a b : Operation)
    (hkey : a.key = b.key)
    (huniq : a.seq = b.seq → a.origin = b.origin → a = b) :
    applyRemote (applyRemote s a) b = applyRemote (applyRemote s b) a ∧
    (s a.key = none →
      applyRemote (applyRemote s a) b a.key =
        some (opEntry (if keyGt b.seq b.origin a.seq a.origin then b else a))) := by
  have hab : a = b ∨ (a.seq, a.origin) ≠ (b.seq, b.origin) := by
    by_cases hs : a.seq = b.seq
    · by_cases ho : a.origin = b.origin
      · exact Or.inl (huniq hs ho)
      · exact Or.inr fun h => ho (congrArg Prod.snd h)
    · exact Or.inr fun h => hs (congrArg Prod.fst h)
  refine ⟨applyRemote_comm s a b hab, fun hnone => ?_⟩
  rw [applyRemote_eval, if_pos hkey, applyRemote_eval, if_pos hkey.symm, hnone]
  simp only [mergeOpt, opEntry]
  by_cases hgt : keyGt b.seq b.origin a.seq a.origin <;> simp [hgt]

/-- C2 witness: concurrent writes to key "x" from "A" (seq 1) and "B"
(seq 1) merge to B's entry in either order on the empty store. -/
theorem applyRemote_merge_comm_witness :
    (applyRemote (applyRemote emptyStore ⟨"A", 1, "x", .int 1⟩ ) ⟨"B", 1, "x", .int 9⟩ =
      applyRemote (applyRemote emptyStore ⟨"B", 1, "x", .int 9⟩ ) ⟨"A", 1, "x", .int 1⟩ ) ∧
    (emptyStore "x" = none →
      applyRemote (applyRemote emptyStore ⟨"A", 1, "x", .int 1⟩ ) ⟨"B", 1, "x", .int 9⟩ "x" =
        some (opEntry (if keyGt 1 "B" 1 "A" then ⟨"B", 1, "x", .int 9⟩
          else ⟨"A", 1, "x", .int 1⟩ ))) :=
  applyRemote_merge_comm emptyStore ⟨"A", 1, "x", .int 1⟩ ⟨"B", 1, "x", .int 9⟩ rfl
    (fun _ h => by simp at h)

/-- C3: with equal Clock values and different origins on the same key, the
operation from the greater ReplicaId wins in both application orders, both
on a replica that merged the other remotely and on the replica that had
installed its own write locally. -/
theorem tie_break (s : MapStore) (a b : Operation)
    (hseq : a.seq = b.seq) (hkey : a.key = b.key)
    (hor : ridLt a.origin b.origin = true) :
    applyRemote (applyRemote s a) b = applyRemote (applyRemote s b) a ∧
    applyRemote (installEntry s a) b a.key = some (opEntry b) ∧
    applyRemote (installEntry s b) a a.key = some (opEntry b) := by
  have hBgtA : keyGt b.seq b.origin a.seq a.origin = true := by
    simp [keyGt, hseq, hor]
  have hAgtB : keyGt a.seq a.origin b.seq b.origin = false := keyGt_asymm _ _ _ _ hBgtA
  refine ⟨applyRemote_comm s a b (Or.inr fun h => ?_), ?_, ?_⟩
  · have ho : a.origin = b.origin := congrArg Prod.snd h
    rw [ho, ridLt_irrefl] at hor
    exact Bool.false_ne_true hor
  · rw [applyRemote_eval, if_pos hkey]
    have : installEntry s a b.key = some (opEntry a) := by
      simp [installEntry, hkey.symm]
    rw [this]
    simp only [mergeOpt, opEntry]
    simp [hBgtA]
  · rw [applyRemote_eval, if_pos rfl]
    have : installEntry s b a.key = some (opEntry b) := by
      simp [installEntry, hkey]
    rw [this]
    simp only [mergeOpt, opEntry]
    simp [hAgtB]

/-- C3 witness: "A" and "B" both set "x" at seq 1; since "B" sorts greater,
both orders of application settle on B's entry. -/
theorem tie_break_witness :
    (applyRemote (applyRemote emptyStore ⟨"A", 1, "x", .int 1⟩ ) ⟨"B", 1, "x", .int 9⟩ =
      applyRemote (applyRemote emptyStore ⟨"B", 1, "x", .int 9⟩ ) ⟨"A", 1, "x", .int 1⟩ ) ∧
    applyRemote (installEntry emptyStore ⟨"A", 1, "x", .int 1⟩ ) ⟨"B", 1, "x", .int 9⟩ "x" =
      some (opEntry ⟨"B", 1, "x", .int 9⟩ ) ∧
    applyRemote (installEntry emptyStore ⟨"B", 1, "x", .int 9⟩ ) ⟨"A", 1, "x", .int 1⟩ "x" =
      some (opEntry ⟨"B", 1, "x", .int 9⟩ ) :=
  tie_break emptyStore ⟨"A", 1, "x", .int 1⟩ ⟨"B", 1, "x", .int 9⟩ rfl rfl (by decide)

/-! ### Export determinism (C7) -/

/-- C7: `exportDelta` is deterministic — two calls against the same
Operation Log state (and the same exporter frontier it embeds in the delta)
with the same target frontier produce byte-identical serialized output, and
hence outputs of equal length. -/
theorem exportDelta_deterministic (r1 r2 : Replica) (f1 f2 : VersionVector)
    (hlog : r1.log = r2.log) (hfr : r1.frontier = r2.frontier) (hf : f1 = f2) :
    serializeDelta (exportDelta r1 f1) = serializeDelta (exportDelta r2 f2) ∧
    (serializeDelta (exportDelta r1 f1)).length =
      (serializeDelta (exportDelta r2 f2)).length := by
  subst hf
  have hd : exportDelta r1 f1 = exportDelta r2 f1 := by
    simp [exportDelta, operationsSince, hlog, hfr]
  rw [hd]
  exact ⟨rfl, rfl⟩

/-- C7 witness: two replicas that share log and frontier but differ in id,
clock and store serialize the same bytes for the same target. -/
theorem exportDelta_deterministic_witness :
    serializeDelta (exportDelta (initReplica "A") []) =
      serializeDelta (exportDelta ⟨"B", 5, [], emptyStore, []⟩ []) ∧
    (serializeDelta (exportDelta (initReplica "A") [])).length =
      (serializeDelta (exportDelta ⟨"B", 5, [], emptyStore, []⟩ [])).length :=
  exportDelta_deterministic _ _ _ _ rfl rfl rfl

/-! ### Well-formed replica states and reachability -/

theorem applyLocal_def (r : Replica) (k : String) (v : Value) :
    applyLocal r k v =
      ⟨r.id, r.clock + 1, vvSet r.frontier r.id (r.clock + 1),
        installEntry r.store ⟨r.id, r.clock + 1, k, v⟩,
        r.log ++ [⟨r.id, r.clock + 1, k, v⟩]⟩ := rfl

/-- The state invariant of a replica: every logged operation has a positive
sequence number bounded by the frontier entry of its origin, the replica's
own frontier entry tracks its clock, and the log is per-origin increasing. -/
def WellFormed (r : Replica) : Prop :=
  (∀ op ∈ r.log, 1 ≤ op.seq ∧ op.seq ≤ vvGet r.frontier op.origin) ∧
  vvGet r.frontier r.id = r.clock ∧
  PerOriginInc r.log

theorem wellFormed_applyLocal (r : Replica) (k : String) (v : Value)
    (h : WellFormed r) : WellFormed (applyLocal r k v) := by
  obtain ⟨hlog, hid, hinc⟩ := h
  rw [applyLocal_def]
  refine ⟨?_, ?_, ?_⟩
  · intro op hop
    simp only [List.mem_append, List.mem_singleton] at hop
    rcases hop with hop | rfl
    · obtain ⟨h1, h2⟩ := hlog op hop
      refine ⟨h1, ?_⟩
      rw [vvGet_vvSet]
      by_cases ho : r.id = op.origin
      · rw [if_pos ho]
        rw [← ho, hid] at h2
        exact le_trans h2 (Nat.le_succ _)
      · rw [if_neg ho]
        exact h2
    · exact ⟨Nat.succ_le_succ (Nat.zero_le _), by rw [vvGet_vvSet_self]⟩
  · rw [vvGet_vvSet_self]
  · show PerOriginInc (r.log ++ [⟨r.id, r.clock + 1, k, v⟩])
    unfold PerOriginInc
    rw [List.pairwise_append]
    refine ⟨hinc, by simp, ?_⟩
    intro a ha b hb horig
    simp only [List.mem_singleton] at hb
    subst hb
    have h2 := (hlog a ha).2
    rw [horig, hid] at h2
    exact Nat.lt_succ_of_le h2

theorem wellFormed_foldl_import (l : List Operation) (cid : ReplicaId) (cc : Nat) :
    ∀ acc : Replica × Bool, acc.1.id = cid → acc.1.clock = cc →
      (∀ op ∈ l, op.origin = cid → op.seq ≤ cc) → WellFormed acc.1 →
      (l.foldl importOne acc).1.id = cid ∧ (l.foldl importOne acc).1.clock = cc ∧
        WellFormed (l.foldl importOne acc).1 := by
  induction l with
  | nil => exact fun acc hid hcc _ hwf => ⟨hid, hcc, hwf⟩
  | cons x t ih =>
    intro acc hid hcc hecho hwf
    obtain ⟨hlog, hfid, hinc⟩ := hwf
    rw [List.foldl_cons]
    have hecht : ∀ op ∈ t, op.origin = cid → op.seq ≤ cc :=
      fun op hop => hecho op (List.mem_cons_of_mem _ hop)
    refine ih (importOne acc x) ?_ ?_ hecht ?_ <;> unfold importOne
    · by_cases hdup : x.seq ≤ vvGet acc.1.frontier x.origin
      · rw [if_pos hdup]; exact hid
      · by_cases hsucc : x.seq = vvGet acc.1.frontier x.origin + 1
        · rw [if_neg hdup, if_pos hsucc]; exact hid
        · rw [if_neg hdup, if_neg hsucc]; exact hid
    · by_cases hdup : x.seq ≤ vvGet acc.1.frontier x.origin
      · rw [if_pos hdup]; exact hcc
      · by_cases hsucc : x.seq = vvGet acc.1.frontier x.origin + 1
        · rw [if_neg hdup, if_pos hsucc]; exact hcc
        · rw [if_neg hdup, if_neg hsucc]; exact hcc
    · by_cases hdup : x.seq ≤ vvGet acc.1.frontier x.origin
      · rw [if_pos hdup]; exact ⟨hlog, hfid, hinc⟩
      · by_cases hsucc : x.seq = vvGet acc.1.frontier x.origin + 1
        · rw [if_neg hdup, if_pos hsucc]
          have hxid : x.origin ≠ acc.1.id := by
            intro hx
            have hle : x.seq ≤ cc := hecho x (List.mem_cons_self _ _) (hx.trans hid)
            rw [hsucc, hx, hfid, hcc] at hle
            exact absurd hle (Nat.not_succ_le_self _)
          refine ⟨?_, ?_, ?_⟩
          · intro op hop
            simp only [List.mem_append, List.mem_singleton] at hop
            rcases hop with hop | rfl
            · obtain ⟨h1, h2⟩ := hlog op hop
              refine ⟨h1, ?_⟩
              rw [vvGet_vvSet]
              by_cases ho : x.origin = op.origin
              · rw [if_pos ho, hsucc]
                rw [← ho] at h2
                exact le_trans h2 (Nat.le_succ _)
              · rw [if_neg ho]
                exact h2
            · exact ⟨hsucc ▸ Nat.succ_le_succ (Nat.zero_le _), by rw [vvGet_vvSet_self]⟩
          · rw [vvGet_vvSet_other _ _ _ _ hxid]
            exact hfid
          · show PerOriginInc (acc.1.log ++ [x])
            unfold PerOriginInc
            rw [List.pairwise_append]
            refine ⟨hinc, by simp, ?_⟩
            intro a ha b hb horig
            simp only [List.mem_singleton] at hb
            subst hb
            have h2 := (hlog a ha).2
            rw [horig] at h2
            rw [hsucc]
            exact Nat.lt_succ_of_le h2
        · rw [if_neg hdup, if_neg hsucc]; exact ⟨hlog, hfid, hinc⟩

/-- The states a replica can pass through during its lifetime: a fresh
replica, followed by local writes and delta imports.  The side condition
on imports reflects the spec's global uniqueness of `(origin, seq)` — an
operation carrying this replica's own id can only be an echo of an
operation it already created, so its `seq` is bounded by the local clock. -/
inductive Reachable : Replica → Prop where
  | init (id : ReplicaId) : Reachable (initReplica id)
  | localStep (r : Replica) (k : String) (v : Value) :
      Reachable r → Reachable (applyLocal r k v)
  | importStep (r : Replica) (d : Delta) :
      Reachable r →
      (∀ op ∈ d.operations, op.origin = r.id → op.seq ≤ r.clock) →
      Reachable (importDelta r d).1

theorem reachable_wellFormed (r : Replica) (h : Reachable r) : WellFormed r := by
  induction h with
  | init id =>
    exact ⟨fun op hop => absurd hop (List.not_mem_nil op), rfl, List.Pairwise.nil⟩
  | localStep r k v _ ih => exact wellFormed_applyLocal r k v ih
  | importStep r d _ hecho ih =>
    exact (wellFormed_foldl_import d.operations r.id r.clock (r, false) rfl rfl hecho ih).2.2

/-- C8: over a replica's lifetime, every version-vector entry is
monotonically non-decreasing under each core operation — `applyLocal`,
`importDelta` and `observe` never rewrite a frontier value downward. -/
theorem frontier_monotone (r : Replica) (h : Reachable r) (o : ReplicaId) :
    (∀ k v, vvGet r.frontier o ≤ vvGet (applyLocal r k v).frontier o) ∧
    (∀ d, vvGet r.frontier o ≤ vvGet (importDelta r d).1.frontier o) ∧
    (∀ origin seq f2, observe r.frontier origin seq = Except.ok f2 →
      vvGet r.frontier o ≤ vvGet f2 o) := by
  refine ⟨fun k v => ?_, fun d => ?_, fun origin seq f2 hobs => ?_⟩
  · rw [applyLocal_def]
    show vvGet r.frontier o ≤ vvGet (vvSet r.frontier r.id (r.clock + 1)) o
    rw [vvGet_vvSet]
    by_cases ho : r.id = o
    · rw [if_pos ho, ← ho]
      have hid := (reachable_wellFormed r h).2.1
      exact le_trans (le_of_eq hid) (Nat.le_succ _)
    · rw [if_neg ho]
  · exact foldl_importOne_frontier_mono d.operations (r, false) o
  · unfold observe at hobs
    by_cases hs : seq = vvGet r.frontier origin + 1
    · rw [if_pos hs] at hobs
      cases hobs
      rw [vvGet_vvSet]
      by_cases ho : origin = o
      · rw [if_pos ho, ← ho, hs]
        exact Nat.le_succ _
      · rw [if_neg ho]
    · rw [if_neg hs] at hobs
      cases hobs

/-- C8 witness: after one local write on a fresh replica "A", a second local
write does not decrease the frontier entry for "A". -/
theorem frontier_monotone_witness :
    vvGet (applyLocal (initReplica "A") "x" (Value.int 1)).frontier "A" ≤
      vvGet (applyLocal (applyLocal (initReplica "A") "x" (Value.int 1)) "y"
        (Value.int 2)).frontier "A" :=
  (frontier_monotone _ (Reachable.localStep _ _ _ (Reachable.init "A")) "A").1
    "y" (Value.int 2)

/-! ### Delta minimality (C5) -/

/-- C5: against a target frontier that already equals the exporter's own
frontier, `exportDelta` returns zero operations; in general it returns
exactly the logged operations with `seq > frontier[origin]` — every such
operation and no others — in per-origin increasing order, while the replica
state is read, never written. -/
theorem exportDelta_minimal (r : Replica) (f : VersionVector)
    (hlog : ∀ op ∈ r.log, op.seq ≤ vvGet r.frontier op.origin)
    (hinc : PerOriginInc r.log) :
    ((∀ o, vvGet f o = vvGet r.frontier o) → (exportDelta r f).operations = []) ∧
    (∀ op, op ∈ (exportDelta r f).operations ↔
      op ∈ r.log ∧ vvGet f op.origin < op.seq) ∧
    PerOriginInc (exportDelta r f).operations := by
  refine ⟨fun hf => ?_, fun op => ?_, ?_⟩
  · simp only [exportDelta, operationsSince]
    rw [List.filter_eq_nil_iff]
    intro op hop
    simp only [decide_eq_true_eq]
    rw [hf]
    exact Nat.not_lt.mpr (hlog op hop)
  · simp [exportDelta, operationsSince, List.mem_filter]
  · exact List.Pairwise.sublist (List.filter_sublist _) hinc

/-- C5 witness: after two local writes on "A", exporting against A's own
frontier yields no operations, while exporting against the empty frontier
yields exactly the log in order. -/
theorem exportDelta_minimal_witness :
    ((∀ o, vvGet (demoEvent (initReplica "A") 3 4).frontier o =
        vvGet (demoEvent (initReplica "A") 3 4).frontier o) →
      (exportDelta (demoEvent (initReplica "A") 3 4)
        (demoEvent (initReplica "A") 3 4).frontier).operations = []) ∧
    (∀ op, op ∈ (exportDelta (demoEvent (initReplica "A") 3 4)
        (demoEvent (initReplica "A") 3 4).frontier).operations ↔
      op ∈ (demoEvent (initReplica "A") 3 4).log ∧
        vvGet (demoEvent (initReplica "A") 3 4).frontier op.origin < op.seq) ∧
    PerOriginInc (exportDelta (demoEvent (initReplica "A") 3 4)
      (demoEvent (initReplica "A") 3 4).frontier).operations :=
  exportDelta_minimal (demoEvent (initReplica "A") 3 4)
    (demoEvent (initReplica "A") 3 4).frontier (by decide) (by decide)

/-! ### Gap handling and per-origin independence (C6) -/

theorem importOne_frontier_congr (a1 a2 : Replica × Bool) (x : Operation)
    (h : vvGet a1.1.frontier x.origin = vvGet a2.1.frontier x.origin) :
    vvGet (importOne a1 x).1.frontier x.origin =
      vvGet (importOne a2 x).1.frontier x.origin := by
  unfold importOne
  by_cases hdup : x.seq ≤ vvGet a1.1.frontier x.origin
  · rw [if_pos hdup,
      if_pos (show x.seq ≤ vvGet a2.1.frontier x.origin by rw [← h]; exact hdup)]
    exact h
  · rw [if_neg hdup,
      if_neg (show ¬ x.seq ≤ vvGet a2.1.frontier x.origin by rw [← h]; exact hdup)]
    by_cases hsucc : x.seq = vvGet a1.1.frontier x.origin + 1
    · rw [if_pos hsucc,
        if_pos (show x.seq = vvGet a2.1.frontier x.origin + 1 by rw [← h]; exact hsucc)]
      show vvGet (vvSet a1.1.frontier x.origin x.seq) x.origin =
        vvGet (vvSet a2.1.frontier x.origin x.seq) x.origin
      rw [vvGet_vvSet_self, vvGet_vvSet_self]
    · rw [if_neg hsucc,
        if_neg (show ¬ x.seq = vvGet a2.1.frontier x.origin + 1 by rw [← h]; exact hsucc)]
      exact h

theorem foldl_importOne_frontier_filter (o : ReplicaId) (l : List Operation) :
    ∀ a1 a2 : Replica × Bool,
      vvGet a1.1.frontier o = vvGet a2.1.frontier o →
      vvGet (l.foldl importOne a1).1.frontier o =
        vvGet ((l.filter fun x => x.origin == o).foldl importOne a2).1.frontier o := by
  induction l with
  | nil => exact fun a1 a2 h => h
  | cons x t ih =>
    intro a1 a2 h
    by_cases hx : x.origin = o
    · rw [List.foldl_cons, List.filter_cons_of_pos (by simpa using hx), List.foldl_cons]
      subst hx
      exact ih _ _ (importOne_frontier_congr a1 a2 x h)
    · rw [List.foldl_cons, List.filter_cons_of_neg (by simpa using hx)]
      refine ih _ _ ?_
      rw [importOne_frontier_other a1 x o hx]
      exact h

/-- C6: an operation whose `seq` leaves a gap above the importer's frontier
for its origin makes the import fail with `MissingPredecessorError` while
leaving the replica state untouched, and, in any delta, the frontier an
origin reaches depends only on that origin's own operations — operations of
other origins proceed independently. -/
theorem importDelta_gap (r : Replica) (sf : VersionVector) (op : Operation)
    (hgap : vvGet r.frontier op.origin + 1 < op.seq) :
    importDelta r ⟨sf, [op]⟩ = (r, some ImportError.missingPredecessor) ∧
    (∀ (d : Delta) (o : ReplicaId),
      vvGet (importDelta r d).1.frontier o =
        vvGet (importDelta r ⟨sf, d.operations.filter fun x =>
          x.origin == o⟩).1.frontier o) ∧
    ∀ op1 : Operation, op1.seq = vvGet r.frontier op1.origin + 1 →
      vvGet (vvSet r.frontier op1.origin op1.seq) op.origin + 1 < op.seq →
      importDelta r ⟨sf, [op1, op]⟩ =
        ({ r with
            frontier := vvSet r.frontier op1.origin op1.seq
            store := applyRemote r.store op1
            log := r.log ++ [op1] }, some ImportError.missingPredecessor) := by
  refine ⟨?_, ?_, ?_⟩
  · have hndup : ¬ op.seq ≤ vvGet r.frontier op.origin :=
      Nat.not_le.mpr (lt_trans (Nat.lt_succ_self _) hgap)
    have hnsucc : op.seq ≠ vvGet r.frontier op.origin + 1 := Nat.ne_of_gt hgap
    simp [importDelta, importOne, hndup, hnsucc]
  · intro d o
    simp only [importDelta]
    exact foldl_importOne_frontier_filter o d.operations (r, false) (r, false) rfl
  · intro op1 hsucc hgap2
    have hndup1 : ¬ op1.seq ≤ vvGet r.frontier op1.origin := by omega
    have hndup2 : ¬ op.seq ≤ vvGet (vvSet r.frontier op1.origin op1.seq) op.origin := by
      omega
    have hnsucc2 : op.seq ≠ vvGet (vvSet r.frontier op1.origin op1.seq) op.origin + 1 := by
      omega
    rw [hsucc] at hndup2 hnsucc2
    simp [importDelta, importOne, hndup1, hsucc, hndup2, hnsucc2]

/-- C6 witness: replica "B" receives `(A,3,...)` before `(A,1,...)` and
`(A,2,...)` — the import fails with `MissingPredecessorError` and the
replica is unchanged. -/
theorem importDelta_gap_witness :
    importDelta (initReplica "B") ⟨[("A", 3)], [⟨"A", 3, "x", Value.int 7⟩]⟩ =
      (initReplica "B", some ImportError.missingPredecessor) ∧
    (∀ (d : Delta) (o : ReplicaId),
      vvGet (importDelta (initReplica "B") d).1.frontier o =
        vvGet (importDelta (initReplica "B") ⟨[("A", 3)], d.operations.filter fun x =>
          x.origin == o⟩).1.frontier o) ∧
    ∀ op1 : Operation, op1.seq = vvGet (initReplica "B").frontier op1.origin + 1 →
      vvGet (vvSet (initReplica "B").frontier op1.origin op1.seq) "A" + 1 < 3 →
      importDelta (initReplica "B") ⟨[("A", 3)], [op1, ⟨"A", 3, "x", Value.int 7⟩]⟩ =
        ({ initReplica "B" with
            frontier := vvSet (initReplica "B").frontier op1.origin op1.seq
            store := applyRemote (initReplica "B").store op1
            log := (initReplica "B").log ++ [op1] }, some ImportError.missingPredecessor) :=
  importDelta_gap (initReplica "B") [("A", 3)] ⟨"A", 3, "x", Value.int 7⟩ (by decide)

/-! ### Idempotence of delivery (C4) -/

theorem importOne_flag_mono (acc : Replica × Bool) (op : Operation) (h : acc.2 = true) :
    (importOne acc op).2 = true := by
  unfold importOne
  by_cases hdup : op.seq ≤ vvGet acc.1.frontier op.origin
  · rw [if_pos hdup]; exact h
  · by_cases hsucc : op.seq = vvGet acc.1.frontier op.origin + 1
    · rw [if_neg hdup, if_pos hsucc]; exact h
    · rw [if_neg hdup, if_neg hsucc]

theorem foldl_importOne_flag_mono (l : List Operation) :
    ∀ acc : Replica × Bool, acc.2 = true → (l.foldl importOne acc).2 = true := by
  induction l with
  | nil => exact fun _ h => h
  | cons x t ih =>
    intro acc h
    rw [List.foldl_cons]
    exact ih _ (importOne_flag_mono acc x h)

theorem foldl_importOne_frontier_stuck (o : ReplicaId) (b : Nat) :
    ∀ (l : List Operation) (acc : Replica × Bool),
      (∀ op ∈ l, op.origin = o → b + 1 < op.seq) →
      vvGet acc.1.frontier o ≤ b →
      vvGet (l.foldl importOne acc).1.frontier o ≤ b := by
  intro l
  induction l with
  | nil => exact fun _ _ hle => hle
  | cons x t ih =>
    intro acc hl hle
    rw [List.foldl_cons]
    refine ih (importOne acc x) (fun op hop => hl op (List.mem_cons_of_mem _ hop)) ?_
    by_cases hxo : x.origin = o
    · have hx : b + 1 < x.seq := hl x (List.mem_cons_self x t) hxo
      unfold importOne
      by_cases hdup : x.seq ≤ vvGet acc.1.frontier x.origin
      · rw [if_pos hdup]; exact hle
      · by_cases hsucc : x.seq = vvGet acc.1.frontier x.origin + 1
        · exfalso
          rw [hxo] at hsucc
          omega
        · rw [if_neg hdup, if_neg hsucc]; exact hle
    · rw [importOne_frontier_other acc x o hxo]; exact hle

theorem foldl_importOne_no_successor (l : List Operation) :
    ∀ acc : Replica × Bool, PerOriginInc l →
      ∀ op ∈ l, op.seq ≠ vvGet (l.foldl importOne acc).1.frontier op.origin + 1 := by
  induction l with
  | nil => intro _ _ op hop; cases hop
  | cons x t ih =>
    intro acc hv op hop
    obtain ⟨hx_rel, hvt⟩ := List.pairwise_cons.mp hv
    rw [List.foldl_cons]
    rcases List.mem_cons.mp hop with rfl | hop_t
    · by_cases hdup : op.seq ≤ vvGet acc.1.frontier op.origin
      · have hfin : op.seq ≤ vvGet (t.foldl importOne (importOne acc op)).1.frontier op.origin :=
          le_trans hdup (le_trans (importOne_frontier_mono acc op op.origin)
            (foldl_importOne_frontier_mono t (importOne acc op) op.origin))
        omega
      · by_cases hsucc : op.seq = vvGet acc.1.frontier op.origin + 1
        · have hset : vvGet (importOne acc op).1.frontier op.origin = op.seq := by
            unfold importOne
            rw [if_neg hdup, if_pos hsucc]
            exact vvGet_vvSet_self _ _ _
          have hfin := foldl_importOne_frontier_mono t (importOne acc op) op.origin
          rw [hset] at hfin
          omega
        · have hstep : (importOne acc op).1 = acc.1 := by
            unfold importOne
            rw [if_neg hdup, if_neg hsucc]
          have hstuck := foldl_importOne_frontier_stuck op.origin
            (vvGet acc.1.frontier op.origin) t (importOne acc op)
            (fun y hy hyo => by
              have hlt := hx_rel y hy hyo.symm
              omega)
            (le_of_eq (by rw [hstep]))
          omega
    · exact ih (importOne acc x) hvt op hop_t

theorem foldl_importOne_stall (l : List Operation) :
    ∀ (r : Replica) (e : Bool),
      (∀ op ∈ l, op.seq ≠ vvGet r.frontier op.origin + 1) →
      (l.foldl importOne (r, e)).1 = r := by
  induction l with
  | nil => intro r _ _; rfl
  | cons x t ih =>
    intro r e h
    rw [List.foldl_cons]
    have hx := h x (List.mem_cons_self x t)
    by_cases hdup : x.seq ≤ vvGet r.frontier x.origin
    · have hstep : importOne (r, e) x = (r, e) := by
        unfold importOne
        rw [if_pos hdup]
      rw [hstep]
      exact ih r e (fun op hop => h op (List.mem_cons_of_mem _ hop))
    · have hstep : importOne (r, e) x = (r, true) := by
        unfold importOne
        rw [if_neg hdup, if_neg hx]
      rw [hstep]
      exact ih r true (fun op hop => h op (List.mem_cons_of_mem _ hop))

theorem foldl_importOne_all_dup (l : List Operation) :
    ∀ (r : Replica) (e : Bool),
      (∀ op ∈ l, op.seq ≤ vvGet r.frontier op.origin) →
      l.foldl importOne (r, e) = (r, e) := by
  induction l with
  | nil => intro r _ _; rfl
  | cons x t ih =>
    intro r e h
    rw [List.foldl_cons]
    have hstep : importOne (r, e) x = (r, e) := by
      unfold importOne
      rw [if_pos (h x (List.mem_cons_self x t))]
    rw [hstep]
    exact ih r e (fun op hop => h op (List.mem_cons_of_mem _ hop))

theorem foldl_importOne_success_le (l : List Operation) :
    ∀ acc : Replica × Bool, (l.foldl importOne acc).2 = false →
      ∀ op ∈ l, op.seq ≤ vvGet (l.foldl importOne acc).1.frontier op.origin := by
  induction l with
  | nil => intro _ _ op hop; cases hop
  | cons x t ih =>
    intro acc hfl op hop
    rw [List.foldl_cons] at hfl ⊢
    rcases List.mem_cons.mp hop with rfl | hop_t
    · by_cases hdup : op.seq ≤ vvGet acc.1.frontier op.origin
      · exact le_trans hdup (le_trans (importOne_frontier_mono acc op op.origin)
          (foldl_importOne_frontier_mono t (importOne acc op) op.origin))
      · by_cases hsucc : op.seq = vvGet acc.1.frontier op.origin + 1
        · have hset : vvGet (importOne acc op).1.frontier op.origin = op.seq := by
            unfold importOne
            rw [if_neg hdup, if_pos hsucc]
            exact vvGet_vvSet_self _ _ _
          have hfin := foldl_importOne_frontier_mono t (importOne acc op) op.origin
          rw [hset] at hfin
          exact hfin
        · exfalso
          have hflag : (importOne acc op).2 = true := by
            unfold importOne
            rw [if_neg hdup, if_neg hsucc]
          have ht := foldl_importOne_flag_mono t (importOne acc op) hflag
          rw [hfl] at ht
          exact Bool.false_ne_true ht
    · exact ih (importOne acc x) hfl op hop_t

/-- C4: importing the same delta a second time leaves the replica (and in
particular its Map Store) exactly as after the first import — every
already-seen `(origin, seq)` pair is a duplicate no-op — and when the
first import succeeded, repeating it also reports no error. -/
theorem importDelta_idempotent (r : Replica) (d : Delta)
    (hinc : PerOriginInc d.operations) :
    (importDelta (importDelta r d).1 d).1 = (importDelta r d).1 ∧
    ((importDelta r d).2 = none →
      importDelta (importDelta r d).1 d = ((importDelta r d).1, none)) := by
  have hns := foldl_importOne_no_successor d.operations (r, false) hinc
  constructor
  · exact foldl_importOne_stall d.operations _ false hns
  · intro hnone
    have hflag : (d.operations.foldl importOne (r, false)).2 = false := by
      by_contra hf
      rw [Bool.not_eq_false] at hf
      simp [importDelta, hf] at hnone
    have hle := foldl_importOne_success_le d.operations (r, false) hflag
    show importDelta (d.operations.foldl importOne (r, false)).1 d = _
    simp only [importDelta]
    rw [foldl_importOne_all_dup d.operations _ false hle]
    rfl

/-- C4 witness: replica "B" imports the delta `[(A,1,x,1), (A,2,x,2)]`
twice; the second import changes nothing and reports no error. -/
theorem importDelta_idempotent_witness :
    (importDelta (importDelta (initReplica "B")
        ⟨[("A", 2)], [⟨"A", 1, "x", Value.int 1⟩, ⟨"A", 2, "x", Value.int 2⟩]⟩ ).1
        ⟨[("A", 2)], [⟨"A", 1, "x", Value.int 1⟩, ⟨"A", 2, "x", Value.int 2⟩]⟩ ).1 =
      (importDelta (initReplica "B")
        ⟨[("A", 2)], [⟨"A", 1, "x", Value.int 1⟩, ⟨"A", 2, "x", Value.int 2⟩]⟩ ).1 ∧
    ((importDelta (initReplica "B")
        ⟨[("A", 2)], [⟨"A", 1, "x", Value.int 1⟩, ⟨"A", 2, "x", Value.int 2⟩]⟩ ).2 = none →
      importDelta (importDelta (initReplica "B")
          ⟨[("A", 2)], [⟨"A", 1, "x", Value.int 1⟩, ⟨"A", 2, "x", Value.int 2⟩]⟩ ).1
          ⟨[("A", 2)], [⟨"A", 1, "x", Value.int 1⟩, ⟨"A", 2, "x", Value.int 2⟩]⟩ =
        ((importDelta (initReplica "B")
          ⟨[("A", 2)], [⟨"A", 1, "x", Value.int 1⟩, ⟨"A", 2, "x", Value.int 2⟩]⟩ ).1, none)) :=
  importDelta_idempotent (initReplica "B")
    ⟨[("A", 2)], [⟨"A", 1, "x", Value.int 1⟩, ⟨"A", 2, "x", Value.int 2⟩]⟩ (by decide)

/-! ### The demo listener: two writes per event (C9) -/

/-- C9: each captured mousemove performs two separate local writes, so the
clock advances by two per event; between the writes the document holds the
new "x" with the previous "y", and a delta exported at that point carries
the x update alone. -/
theorem demo_two_writes (r : Replica) (px py : Int)
    (hlog : ∀ op ∈ r.log, op.seq ≤ vvGet r.frontier op.origin)
    (hclock : vvGet r.frontier r.id = r.clock) :
    (demoEvent r px py).clock = r.clock + 2 ∧
    (applyLocal r "x" (Value.int px)).store "x" =
      some ⟨Value.int px, r.id, r.clock + 1⟩ ∧
    (applyLocal r "x" (Value.int px)).store "y" = r.store "y" ∧
    (exportDelta (applyLocal r "x" (Value.int px)) r.frontier).operations =
      [⟨r.id, r.clock + 1, "x", Value.int px⟩] := by
  refine ⟨rfl, ?_, ?_, ?_⟩
  · show installEntry r.store ⟨r.id, r.clock + 1, "x", Value.int px⟩ "x" = _
    simp [installEntry, opEntry]
  · show installEntry r.store ⟨r.id, r.clock + 1, "x", Value.int px⟩ "y" = r.store "y"
    simp [installEntry]
  · show (exportDelta ⟨r.id, r.clock + 1, vvSet r.frontier r.id (r.clock + 1),
      installEntry r.store ⟨r.id, r.clock + 1, "x", Value.int px⟩,
      r.log ++ [⟨r.id, r.clock + 1, "x", Value.int px⟩]⟩ r.frontier).operations = _
    simp only [exportDelta, operationsSince]
    rw [List.filter_append]
    have h1 : r.log.filter (fun op => decide (vvGet r.frontier op.origin < op.seq)) = [] := by
      rw [List.filter_eq_nil_iff]
      intro op hop
      simp only [decide_eq_true_eq]
      exact Nat.not_lt.mpr (hlog op hop)
    rw [h1]
    simp [hclock]

/-- C9 witness: on a fresh replica "A", one event advances the clock from 0
to 2, and after the first of its two writes the store holds the new "x"
while "y" is still absent; the delta exported between the writes carries
exactly the x operation. -/
theorem demo_two_writes_witness :
    (demoEvent (initReplica "A") 10 20).clock = (initReplica "A").clock + 2 ∧
    (applyLocal (initReplica "A") "x" (Value.int 10)).store "x" =
      some ⟨Value.int 10, (initReplica "A").id, (initReplica "A").clock + 1⟩ ∧
    (applyLocal (initReplica "A") "x" (Value.int 10)).store "y" =
      (initReplica "A").store "y" ∧
    (exportDelta (applyLocal (initReplica "A") "x" (Value.int 10))
        (initReplica "A").frontier).operations =
      [⟨(initReplica "A").id, (initReplica "A").clock + 1, "x", Value.int 10⟩] :=
  demo_two_writes (initReplica "A") 10 20 (by decide) (by decide)

/-! ### The demo's displayed byte count (C10) -/

theorem encodeOps_append (l1 l2 : List Operation) :
    encodeOps (l1 ++ l2) = encodeOps l1 ++ encodeOps l2 := by
  induction l1 with
  | nil => rfl
  | cons x t ih => simp [encodeOps, ih]

theorem vvSet_length (f : VersionVector) (r : ReplicaId) (n : Nat) :
    f.length ≤ (vvSet f r n).length := by
  induction f with
  | nil => simp [vvSet]
  | cons p rest ih =>
    obtain ⟨a, m⟩ := p
    by_cases har : a = r
    · subst har
      simp [vvSet]
    · simp only [vvSet, if_neg har, List.length_cons]
      omega

theorem encodeVVBody_vvSet_length (f : VersionVector) (r : ReplicaId) (n : Nat) :
    (encodeVVBody f).length ≤ (encodeVVBody (vvSet f r n)).length := by
  induction f with
  | nil => simp [encodeVVBody, vvSet]
  | cons p rest ih =>
    obtain ⟨a, m⟩ := p
    by_cases har : a = r
    · subst har
      simp [vvSet, encodeVVBody]
    · simp only [vvSet, if_neg har, encodeVVBody, List.length_append]
      omega

theorem encodeVV_vvSet_length (f : VersionVector) (r : ReplicaId) (n : Nat) :
    (encodeVV f).length ≤ (encodeVV (vvSet f r n)).length := by
  have h1 := encodeVVBody_vvSet_length f r n
  have h2 := vvSet_length f r n
  simp only [encodeVV, List.length_cons]
  omega

theorem serializeDelta_length (d : Delta) :
    (serializeDelta d).length =
      (encodeVV d.senderFrontier).length + 1 + (encodeOps d.operations).length := by
  simp only [serializeDelta, List.length_append, List.length_cons]
  omega

/-- C10: the byte count the demo displays is the length of an export against
the empty frontier — a serialization of the whole operation history since
document creation — and it never decreases across successive captured
events on one replica. -/
theorem demo_size_monotone (r : Replica) (hseq : ∀ op ∈ r.log, 1 ≤ op.seq) :
    (exportDelta r []).operations = r.log ∧
    ∀ px py : Int, demoSize r ≤ demoSize (demoEvent r px py) := by
  constructor
  · simp only [exportDelta, operationsSince]
    rw [List.filter_eq_self]
    intro op hop
    simp only [vvGet, decide_eq_true_eq]
    exact hseq op hop
  · intro px py
    simp only [demoSize]
    rw [serializeDelta_length, serializeDelta_length]
    simp only [exportDelta]
    have hfr : (demoEvent r px py).frontier =
        vvSet (vvSet r.frontier r.id (r.clock + 1)) r.id (r.clock + 1 + 1) := rfl
    have hlg : (demoEvent r px py).log =
        r.log ++ [⟨r.id, r.clock + 1, "x", Value.int px⟩] ++
          [⟨r.id, r.clock + 1 + 1, "y", Value.int py⟩] := rfl
    rw [hfr, hlg]
    have h1 := encodeVV_vvSet_length r.frontier r.id (r.clock + 1)
    have h2 := encodeVV_vvSet_length (vvSet r.frontier r.id (r.clock + 1)) r.id
      (r.clock + 1 + 1)
    simp only [operationsSince, List.filter_append, encodeOps_append, List.length_append]
    omega

/-- C10 witness: on a fresh replica "A", the export against the empty
frontier is the whole (empty) log and the displayed size does not decrease
after one captured event. -/
theorem demo_size_monotone_witness :
    ((exportDelta (initReplica "A") []).operations = (initReplica "A").log) ∧
    ∀ px py : Int, demoSize (initReplica "A") ≤
      demoSize (demoEvent (initReplica "A") px py) :=
  demo_size_monotone (initReplica "A") (by decide)

end Loro
